import Mathlib

/-!
Verification of the Superstore sales-analysis engine.

This file gives a shallow embedding, in Lean, of the data-analysis pipeline
implemented by the three pandas scripts of the repository
(`superstore_analysis.py`, `enhanced_superstore_analysis.py`,
`interactive_dashboard.py`) and proves, or refutes on concrete inputs,
the stated properties of that pipeline.

Modelling conventions:
* pandas float columns are modelled over `ℚ`; the special values produced by
  pandas/numpy zero-division (`NaN`, `inf`, `-inf`) are modelled by the
  explicit type `PVal` with the IEEE rules for the operations the scripts use.
* a dataframe is a `List` of records; column derivations are `List.map`,
  `dropna` is `List.filter`, `pd.cut` is `cutIdx`/`cut`, `groupby(sort=True)`
  is `groupBy` (group keys deduplicated and sorted ascending, `NaN` keys
  dropped, exactly as pandas does with the default `dropna=True`),
  `Series.nlargest(n)` with the default `keep='first'` is a stable descending
  sort on the metric followed by `take n` (pandas implements it with a stable
  `mergesort` argsort), and `sort_values(ascending=False)` is modelled by the
  same stable descending sort.
-/

attribute [local semireducible] Rat.mul Rat.add Rat.inv Rat.sub

/-- Extended numeric value: a finite rational or one of the IEEE specials
`NaN`, `+inf`, `-inf` that pandas produces on zero division. -/
inductive PVal where
  | num (q : ℚ)
  | nan
  | inf
  | neginf
deriving DecidableEq

namespace PVal

/-- IEEE division as numpy performs it on two (finite or special) values:
`0/0 = NaN`, `a/0 = ±inf` for `a ≠ 0`; specials propagate. -/
def divP : PVal → PVal → PVal
  | num a, num b =>
      if b = 0 then
        if a = 0 then nan else if 0 < a then inf else neginf
      else num (a / b)
  | nan, _ => nan
  | _, nan => nan
  | inf, num b => if 0 ≤ b then inf else neginf
  | neginf, num b => if 0 ≤ b then neginf else inf
  | num _, inf => num 0
  | num _, neginf => num 0
  | inf, inf => nan
  | inf, neginf => nan
  | neginf, inf => nan
  | neginf, neginf => nan

/-- Multiplication by the positive constant 100 (`* 100` in the scripts);
specials are preserved. -/
def mul100 : PVal → PVal
  | num q => num (q * 100)
  | nan => nan
  | inf => inf
  | neginf => neginf

end PVal

/-- Round-half-to-even to an integer, the tie rule used by
`numpy.round`/`Series.round`. -/
def roundHalfEven (q : ℚ) : ℤ :=
  let f := ⌊q⌋
  let r := q - f
  if r < 1 / 2 then f
  else if 1 / 2 < r then f + 1
  else if f % 2 = 0 then f else f + 1

/-- `Series.round(2)`: round to 2 decimal places. -/
def round2 (q : ℚ) : ℚ := (roundHalfEven (q * 100) : ℚ) / 100

/-- `Series.round(2)` lifted to extended values: `NaN` and `±inf` are
unchanged by pandas rounding. -/
def PVal.round2P : PVal → PVal
  | num q => num (round2 q)
  | nan => nan
  | inf => inf
  | neginf => neginf

/-- The per-record derived column
`df['Profit Margin'] = (df['Profit'] / df['Sales'] * 100).round(2)`
(`enhanced_superstore_analysis.py` line 47, `interactive_dashboard.py`
line 55), as a function of the record's profit and sales values. -/
def profit_margin (profit sales : ℚ) : PVal :=
  ((PVal.num profit).divP (PVal.num sales)).mul100.round2P

/-- A cleaned sales record (one dataframe row) with the fields the analysed
aggregations read.  Identifier columns (order id, customer name, product
name, region) are modelled as naturals: the engine only compares and orders
them, so their order stands in for the lexicographic order on the source's
strings. -/
structure Rec where
  orderId : ℕ
  customer : ℕ
  product : ℕ
  region : ℕ
  sales : ℚ
  profit : ℚ
  quantity : ℚ
  discount : ℚ
deriving DecidableEq

/-- `df_cleaned['Sales'].sum()` (enhanced script line 395). -/
def totalSales (rs : List Rec) : ℚ := (rs.map Rec.sales).sum

/-- `df_cleaned['Profit'].sum()` (enhanced script line 396). -/
def totalProfit (rs : List Rec) : ℚ := (rs.map Rec.profit).sum

/-- `df_cleaned['Quantity'].sum()`. -/
def totalQuantity (rs : List Rec) : ℚ := (rs.map Rec.quantity).sum

/-- `df_cleaned['Order ID'].nunique()` (enhanced script line 397). -/
def total_orders (rs : List Rec) : ℕ := ((rs.map Rec.orderId).dedup).length

/-- `avg_order_value = total_sales / total_orders` (enhanced script
line 401). -/
def avg_order_value (rs : List Rec) : ℚ := totalSales rs / (total_orders rs : ℚ)

/-- The order count printed by the basic script:
`Number of Orders: len(df)` (`superstore_analysis.py` line 154) — the row
count of the cleaned frame, not a distinct count. -/
def num_orders_basic (rs : List Rec) : ℕ := rs.length

/-- The dashboard profit-margin KPI
`profit_margin = (total_profit / total_sales * 100) if total_sales > 0 else 0`
(`interactive_dashboard.py` line 112). -/
def profit_margin_kpi (rs : List Rec) : ℚ :=
  if 0 < totalSales rs then totalProfit rs / totalSales rs * 100 else 0

/-- The enhanced-script KPI
`avg_profit_margin = (total_profit / total_sales) * 100`
(`enhanced_superstore_analysis.py` line 402): an unguarded float division,
modelled with the IEEE specials it produces. -/
def avg_profit_margin (rs : List Rec) : PVal :=
  ((PVal.num (totalProfit rs)).divP (PVal.num (totalSales rs))).mul100

/-- `pd.cut(x, bins=edges, right=True)` (the default, used at
`enhanced_superstore_analysis.py` lines 320-322 and 97-101 and
`interactive_dashboard.py` lines 182-186 and 364-366): the index of the
first right-closed interval `(e_i, e_{i+1}]` containing `v`, or `none` when
`v` lies in no interval.  Edges live in `WithTop ℚ` so that the unbounded
top edge `float('inf')` of the customer tiers is representable. -/
def cutIdx : List (WithTop ℚ) → ℚ → Option ℕ
  | e0 :: e1 :: rest, v =>
      if e0 < (v : WithTop ℚ) ∧ (v : WithTop ℚ) ≤ e1 then some 0
      else (cutIdx (e1 :: rest) v).map (· + 1)
  | _, _ => none

/-- `pd.cut` with labels: the label of the interval found by `cutIdx`. -/
def cut (edges : List (WithTop ℚ)) (labels : List String) (v : ℚ) : Option String :=
  (cutIdx edges v).bind (fun i => labels[i]?)

/-- Discount-band edges `[0, 0.1, 0.2, 0.3, 0.4, 0.5, 1.0]`. -/
def discountEdges : List (WithTop ℚ) :=
  [0, (1 / 10 : ℚ), (2 / 10 : ℚ), (3 / 10 : ℚ), (4 / 10 : ℚ), (5 / 10 : ℚ), 1]

/-- Discount-band labels. -/
def discountLabels : List String :=
  ["0-10%", "10-20%", "20-30%", "30-40%", "40-50%", "50%+"]

/-- Customer-tier edges `[0, 1000, 5000, 10000, float('inf')]`. -/
def tierEdges : List (WithTop ℚ) := [0, 1000, 5000, 10000, ⊤]

/-- Customer-tier labels. -/
def tierLabels : List String := ["Bronze", "Silver", "Gold", "Platinum"]

/-- `df_cleaned['Discount_Bin']` as a grouping key: the index of the
discount band of a record (`none` = the `NaN` category pandas assigns to an
unbucketed discount).  Grouping by the index is grouping by the band label,
since labels are listed in category (= index) order. -/
def discount_bin_key (r : Rec) : Option ℕ := cutIdx discountEdges r.discount

/-- The key list of `df.groupby(key)` with the default `sort=True` and
`dropna=True`: the distinct defined (non-`NaN`) key values of the rows,
sorted ascending. -/
def groupKeys {α K : Type} [DecidableEq K] [LinearOrder K]
    (key : α → Option K) (rs : List α) : List K :=
  List.insertionSort (· ≤ ·) (rs.filterMap key).dedup

/-- `df.groupby(key)` (defaults `sort=True`, `dropna=True`): one group per
distinct defined key value, in ascending key order; each group holds, in
input order, exactly the rows carrying that key; rows whose key is `NaN`
belong to no group. -/
def groupBy {α K : Type} [DecidableEq K] [LinearOrder K]
    (key : α → Option K) (rs : List α) : List (K × List α) :=
  (groupKeys key rs).map (fun k => (k, rs.filter (fun r => decide (key r = some k))))

/-- `Series.nlargest(n)` / `DataFrame.nlargest(n, metric)` with the default
`keep='first'` (`interactive_dashboard.py` line 200 among others): stable
descending sort on the metric, then the first `n` rows.  (pandas implements
this with a stable `mergesort` argsort of the negated values.) -/
def nlargest {α : Type} (n : ℕ) (metric : α → ℚ) (l : List α) : List α :=
  (List.insertionSort (fun a b => metric b ≤ metric a) l).take n

/-- One row of `customer_analysis` (`interactive_dashboard.py` lines
176-180): per-customer sum of sales and profit and distinct order count. -/
structure CustRow where
  customer : ℕ
  sales : ℚ
  profit : ℚ
  orders : ℕ
deriving DecidableEq

/-- `customer_analysis = filtered_df.groupby('Customer Name').agg(...)`
(`interactive_dashboard.py` lines 176-180). -/
def customer_analysis (rs : List Rec) : List CustRow :=
  (groupBy (fun r => some r.customer) rs).map
    (fun g => ⟨g.1, totalSales g.2, totalProfit g.2, total_orders g.2⟩)

/-- `top_customers = customer_analysis.nlargest(10, 'Sales')`
(`interactive_dashboard.py` line 200). -/
def top_customers (rs : List Rec) : List CustRow :=
  nlargest 10 CustRow.sales (customer_analysis rs)

/-- One row of `top_products` (`enhanced_superstore_analysis.py` lines
116-120): per-product sums. -/
structure ProdRow where
  product : ℕ
  sales : ℚ
  profit : ℚ
  quantity : ℚ
deriving DecidableEq

/-- `df_cleaned.groupby('Product Name').agg(sum).sort_values('Sales',
ascending=False)` (`enhanced_superstore_analysis.py` lines 116-120):
per-product sums, sorted by total sales descending. -/
def top_products (rs : List Rec) : List ProdRow :=
  List.insertionSort (fun a b => b.sales ≤ a.sales)
    ((groupBy (fun r => some r.product) rs).map
      (fun g => (⟨g.1, totalSales g.2, totalProfit g.2, totalQuantity g.2⟩ : ProdRow)))

/-- `bottom_10_profit = top_products[top_products['Profit'] < 0].head(10)`
(`enhanced_superstore_analysis.py` line 126): the first 10 rows of the
sales-descending product table whose total profit is negative. -/
def bottom_10_profit (rs : List Rec) : List ProdRow :=
  ((top_products rs).filter (fun p => decide (p.profit < 0))).take 10

/-- A raw input row for normalization: an order id, an optional postal code
(`NaN` = `none`), the two dates as day/month/year components as read under
the day-first convention of `pd.to_datetime(dayfirst=True)`, and the numeric
metrics. -/
structure RawRow where
  orderId : ℕ
  postal : Option ℚ
  odDay : ℕ
  odMonth : ℕ
  odYear : ℕ
  sdDay : ℕ
  sdMonth : ℕ
  sdYear : ℕ
  sales : ℚ
  profit : ℚ
deriving DecidableEq

/-- Gregorian leap-year test. -/
def isLeapYear (y : ℕ) : Bool :=
  decide ((y % 4 = 0 ∧ ¬y % 100 = 0) ∨ y % 400 = 0)

/-- Days in a month. -/
def daysInMonth (y m : ℕ) : ℕ :=
  if m = 2 then (if isLeapYear y then 29 else 28)
  else if m = 4 ∨ m = 6 ∨ m = 9 ∨ m = 11 then 30
  else 31

/-- `pd.to_datetime(x, dayfirst=True, errors='coerce')` on one value
(`superstore_analysis.py` lines 30-31, `enhanced_superstore_analysis.py`
lines 36-37, `interactive_dashboard.py` lines 46-47): the first component
is read as the day; an invalid date yields `NaT` (= `none`) instead of
raising, so the parse is total and never aborts the batch. -/
def to_datetime (d m y : ℕ) : Option (ℕ × ℕ × ℕ) :=
  if 1 ≤ m ∧ m ≤ 12 ∧ 1 ≤ d ∧ d ≤ daysInMonth y m then some (y, m, d) else none

/-- A normalized row: dates are parsed (or `NaT`), other fields carried
over. -/
structure NormRow where
  orderId : ℕ
  postal : Option ℚ
  orderDate : Option (ℕ × ℕ × ℕ)
  shipDate : Option (ℕ × ℕ × ℕ)
  sales : ℚ
  profit : ℚ
deriving DecidableEq

/-- Date conversion applied to one raw row. -/
def normalizeRow (r : RawRow) : NormRow :=
  ⟨r.orderId, r.postal, to_datetime r.odDay r.odMonth r.odYear,
    to_datetime r.sdDay r.sdMonth r.sdYear, r.sales, r.profit⟩

/-- Helper for `drop_duplicates`: keep the first occurrence of each row. -/
def dropDupAux : List NormRow → List NormRow → List NormRow
  | _, [] => []
  | seen, r :: rs =>
      if r ∈ seen then dropDupAux seen rs else r :: dropDupAux (r :: seen) rs

/-- `df.drop_duplicates()` (`superstore_analysis.py` line 34): full-row
de-duplication keeping first occurrences. -/
def drop_duplicates (rs : List NormRow) : List NormRow := dropDupAux [] rs

/-- Does a row have no missing value?  (`NaT` dates count as missing.) -/
def rowComplete (r : NormRow) : Bool :=
  r.postal.isSome && r.orderDate.isSome && r.shipDate.isSome

/-- The basic script's cleaning (`superstore_analysis.py` lines 30-37):
parse dates, `drop_duplicates()`, then `df.dropna()` — which drops every
row with any missing value, including a `NaT` produced by a failed date
parse. -/
def clean_basic (rs : List RawRow) : List NormRow :=
  (drop_duplicates (rs.map normalizeRow)).filter rowComplete

/-- The enhanced/dashboard cleaning (`enhanced_superstore_analysis.py`
line 53, `interactive_dashboard.py` line 57):
`df.dropna(subset=['Postal Code'])` — only rows with a missing postal code
are dropped; rows with unparseable dates are retained. -/
def clean_enhanced (rs : List RawRow) : List NormRow :=
  (rs.map normalizeRow).filter (fun r => r.postal.isSome)

/-- C1: for every record, the derived `Profit Margin` value is `NaN` iff
`sales = 0` and `profit = 0`; when `sales = 0` but `profit ≠ 0` it is the
infinite value of the sign of the profit (not an undefined value); and when
`sales ≠ 0` it is `profit / sales * 100` rounded to 2 decimals at
derivation time. -/
theorem profit_margin_cases (p s : ℚ) :
    (profit_margin p s = PVal.nan ↔ s = 0 ∧ p = 0)
    ∧ (s = 0 → p ≠ 0 →
        profit_margin p s = PVal.inf ∨ profit_margin p s = PVal.neginf)
    ∧ (s ≠ 0 → profit_margin p s = PVal.num (round2 (p / s * 100))) := by
  unfold profit_margin PVal.divP
  by_cases hs : s = 0
  · subst hs
    by_cases hp : p = 0
    · subst hp
      simp [PVal.mul100, PVal.round2P]
    · by_cases hp' : 0 < p
      · simp [hp, hp', PVal.mul100, PVal.round2P]
      · simp [hp, hp', PVal.mul100, PVal.round2P]
  · simp [hs, PVal.mul100, PVal.round2P]

/-- Witness for `profit_margin_cases`: a record with profit 20 and sales
100 gets the finite margin 20. -/
theorem profit_margin_cases_witness :
    profit_margin 20 100 = PVal.num (round2 (20 / 100 * 100))
    ∧ round2 (20 / 100 * 100) = 20 :=
  ⟨(profit_margin_cases 20 100).2.2 (by norm_num), by decide⟩

/-- Counterexample to C1 as stated: with `sales = 0` and `profit = 5`
pandas produces `+inf`, not an undefined value, and with `sales = 3`,
`profit = 2` the stored margin is the rounded `66.67`, not
`2 / 3 * 100 = 66.666...`. -/
theorem profit_margin_zero_sales_not_undefined :
    profit_margin 5 0 = PVal.inf ∧ PVal.inf ≠ PVal.nan
    ∧ profit_margin 2 3 = PVal.num (6667 / 100)
    ∧ (6667 / 100 : ℚ) ≠ 2 / 3 * 100 := by
  refine ⟨by decide, by decide, by decide, by decide⟩

/-- C10: derived ratios are rounded to 2 decimal places at derivation time:
for every record with nonzero sales the stored `Profit Margin` is
`round2 (profit / sales * 100)`, a value with at most 2 decimal places
(denominator of `value * 100` is 1), and this rounded value is what
downstream consumers (correlation, box plots) read. -/
theorem profit_margin_stored_rounded (p s : ℚ) (hs : s ≠ 0) :
    profit_margin p s = PVal.num (round2 (p / s * 100))
    ∧ (round2 (p / s * 100) * 100).den = 1 := by
  constructor
  · unfold profit_margin PVal.divP
    simp [hs, PVal.mul100, PVal.round2P]
  · unfold round2
    rw [div_mul_cancel₀]
    · exact Rat.den_intCast _
    · norm_num

/-- Witness for `profit_margin_stored_rounded`: profit 1, sales 3. -/
theorem profit_margin_stored_rounded_witness :
    profit_margin 1 3 = PVal.num (round2 (1 / 3 * 100))
    ∧ (round2 (1 / 3 * 100) * 100).den = 1 :=
  profit_margin_stored_rounded 1 3 (by norm_num)

/-- Counterexample to C10 as stated: the value stored at derivation time
for profit 1, sales 3 is the rounded `33.33`, not the unrounded quotient
`100 / 3`, so rounding is not deferred to presentation time. -/
theorem profit_margin_not_unrounded :
    profit_margin 1 3 = PVal.num (3333 / 100)
    ∧ (3333 / 100 : ℚ) ≠ 1 / 3 * 100 := by
  refine ⟨by decide, by decide⟩

/-- C2: zero-denominator handling of the dataset-wide profit-margin ratio.
When the (filtered) records have `total_sales ≤ 0` the dashboard KPI is the
explicit fallback value `0` (not an undefined value); the enhanced script's
unguarded `avg_profit_margin` is `NaN` when total profit is also 0 and
`±inf` otherwise; and when `total_sales > 0` both equal
`total_profit / total_sales * 100`. -/
theorem profit_margin_kpi_zero_denominator (rs : List Rec) :
    (totalSales rs ≤ 0 → profit_margin_kpi rs = 0)
    ∧ (0 < totalSales rs →
        profit_margin_kpi rs = totalProfit rs / totalSales rs * 100
        ∧ avg_profit_margin rs = PVal.num (totalProfit rs / totalSales rs * 100))
    ∧ (totalSales rs = 0 → totalProfit rs = 0 → avg_profit_margin rs = PVal.nan)
    ∧ (totalSales rs = 0 → totalProfit rs ≠ 0 →
        avg_profit_margin rs = PVal.inf ∨ avg_profit_margin rs = PVal.neginf) := by
  unfold profit_margin_kpi avg_profit_margin PVal.divP
  refine ⟨fun h => by simp [not_lt.mpr h], fun h => ?_, fun h h0 => ?_, fun h h0 => ?_⟩
  · simp [h, ne_of_gt h, PVal.mul100]
  · simp [h, h0, PVal.mul100]
  · by_cases hp : 0 < totalProfit rs
    · simp [h, h0, hp, PVal.mul100]
    · simp [h, h0, hp, PVal.mul100]

/-- Witness for `profit_margin_kpi_zero_denominator`: a single record with
sales 0 and profit 5 has KPI 0 and `avg_profit_margin = +inf`. -/
theorem profit_margin_kpi_zero_denominator_witness :
    profit_margin_kpi [(⟨1, 1, 1, 1, 0, 5, 1, 0⟩ : Rec)] = 0
    ∧ avg_profit_margin [(⟨1, 1, 1, 1, 0, 5, 1, 0⟩ : Rec)] = PVal.inf :=
  ⟨(profit_margin_kpi_zero_denominator _).1 (by decide),
    ((profit_margin_kpi_zero_denominator _).2.2.2 (by decide) (by decide)).resolve_right
      (by decide)⟩

/-- Counterexample to C2 as stated: over a record set whose total sales is
0 (one record, sales 0, profit 5) the dashboard profit-margin KPI is the
number 0 — not an undefined value — and the enhanced script's ratio is the
silently-propagating `+inf`. -/
theorem profit_margin_kpi_zero_is_zero :
    totalSales [(⟨2, 1, 1, 1, 0, 5, 1, 0⟩ : Rec)] = 0
    ∧ profit_margin_kpi [(⟨2, 1, 1, 1, 0, 5, 1, 0⟩ : Rec)] = 0
    ∧ avg_profit_margin [(⟨2, 1, 1, 1, 0, 5, 1, 0⟩ : Rec)] = PVal.inf := by
  refine ⟨by decide, by decide, by decide⟩

/-- C9: the enhanced script's KPI `total_orders` is the number of distinct
order ids (not the number of rows), `avg_order_value` divides total sales
by that distinct count, while the basic script's reported
`Number of Orders` is the row count. -/
theorem total_orders_distinct (rs : List Rec) :
    total_orders rs = (rs.map Rec.orderId).toFinset.card
    ∧ avg_order_value rs = totalSales rs / ((rs.map Rec.orderId).toFinset.card : ℚ)
    ∧ num_orders_basic rs = rs.length := by
  have h : (rs.map Rec.orderId).toFinset.card = total_orders rs :=
    List.card_toFinset _
  exact ⟨h.symm, by rw [h]; rfl, rfl⟩

/-- Counterexample to C9 as stated: two rows sharing order id 1 — the
basic script reports 2 orders where the distinct count is 1. -/
theorem num_orders_basic_counts_rows :
    num_orders_basic [(⟨1, 1, 1, 1, 5, 1, 1, 0⟩ : Rec), (⟨1, 2, 2, 2, 7, 1, 1, 0⟩ : Rec)] = 2
    ∧ total_orders [(⟨1, 1, 1, 1, 5, 1, 1, 0⟩ : Rec), (⟨1, 2, 2, 2, 7, 1, 1, 0⟩ : Rec)] = 1
    ∧ (2 : ℕ) ≠ 1 := by
  refine ⟨by decide, by decide, by decide⟩

/-- Characterization of `cutIdx` on sorted edges: the cut index is `i`
exactly when the value lies in the right-closed interval between edges `i`
and `i + 1`. -/
theorem cutIdx_some_iff (edges : List (WithTop ℚ)) (hs : edges.Pairwise (· < ·))
    (v : ℚ) (i : ℕ) :
    cutIdx edges v = some i ↔
      ∃ a b, edges[i]? = some a ∧ edges[i + 1]? = some b
        ∧ a < (v : WithTop ℚ) ∧ (v : WithTop ℚ) ≤ b := by
  induction edges generalizing i with
  | nil => simp [cutIdx]
  | cons e0 rest ih =>
    cases rest with
    | nil =>
      simp only [cutIdx]
      constructor
      · intro h; cases h
      · rintro ⟨a, b, ha, hb, _, _⟩
        rcases i with _ | j
        · simp at hb
        · simp at ha
    | cons e1 rest' =>
      rw [cutIdx]
      by_cases hc : e0 < (v : WithTop ℚ) ∧ (v : WithTop ℚ) ≤ e1
      · rw [if_pos hc]
        rcases i with _ | j
        · simp [hc.1, hc.2]
        · constructor
          · intro h; cases h
          · rintro ⟨a, b, ha, hb, hlt, hle⟩
            rw [List.getElem?_cons_succ] at ha
            have hmem : a ∈ e1 :: rest' := List.getElem?_mem ha
            have he1a : e1 ≤ a := by
              rcases List.mem_cons.mp hmem with h1 | h1
              · exact le_of_eq h1.symm
              · exact le_of_lt ((List.pairwise_cons.mp hs.of_cons).1 a h1)
            exact absurd hlt (not_lt.mpr (le_trans hc.2 he1a))
      · rw [if_neg hc]
        rcases i with _ | j
        · constructor
          · intro h
            rcases Option.map_eq_some'.mp h with ⟨x, _, hx⟩
            omega
          · rintro ⟨a, b, ha, hb, hlt, hle⟩
            rw [List.getElem?_cons_zero, Option.some.injEq] at ha
            rw [List.getElem?_cons_succ, List.getElem?_cons_zero, Option.some.injEq] at hb
            exact absurd ⟨ha ▸ hlt, hb ▸ hle⟩ hc
        · constructor
          · intro h
            rcases Option.map_eq_some'.mp h with ⟨x, hx, hxj⟩
            have hxeq : x = j := by omega
            rw [hxeq] at hx
            rcases (ih hs.of_cons j).mp hx with ⟨a, b, ha, hb, hlt, hle⟩
            refine ⟨a, b, ?_, ?_, hlt, hle⟩
            · rw [List.getElem?_cons_succ]; exact ha
            · rw [List.getElem?_cons_succ]; exact hb
          · rintro ⟨a, b, ha, hb, hlt, hle⟩
            rw [List.getElem?_cons_succ] at ha hb
            have h := (ih hs.of_cons j).mpr ⟨a, b, ha, hb, hlt, hle⟩
            rw [h, Option.map_some']

/-- In a strictly ascending edge list the head is at most the last edge. -/
theorem head_le_getLast_of_sorted (x : WithTop ℚ) (l : List (WithTop ℚ))
    (h : (x :: l).Pairwise (· < ·)) :
    x ≤ (x :: l).getLast (List.cons_ne_nil x l) := by
  cases l with
  | nil => simp
  | cons y l' =>
    rw [List.getLast_cons (List.cons_ne_nil y l')]
    exact le_of_lt ((List.pairwise_cons.mp h).1 _ (List.getLast_mem _))

/-- `cutIdx` on sorted edges is `none` exactly for values at or below the
first edge, or above the last edge. -/
theorem cutIdx_none_iff (e0 : WithTop ℚ) (rest : List (WithTop ℚ))
    (hs : (e0 :: rest).Pairwise (· < ·)) (v : ℚ) :
    cutIdx (e0 :: rest) v = none ↔
      (v : WithTop ℚ) ≤ e0 ∨ (e0 :: rest).getLast (List.cons_ne_nil e0 rest) < (v : WithTop ℚ) := by
  induction rest generalizing e0 with
  | nil =>
    simp only [cutIdx, List.getLast_singleton]
    constructor
    · intro _; exact le_or_lt (v : WithTop ℚ) e0
    · intro _; trivial
  | cons e1 rest' ih =>
    rw [cutIdx]
    by_cases hc : e0 < (v : WithTop ℚ) ∧ (v : WithTop ℚ) ≤ e1
    · rw [if_pos hc]
      constructor
      · intro h; cases h
      · rintro (h | h)
        · exact absurd hc.1 (not_lt.mpr h)
        · rw [List.getLast_cons (List.cons_ne_nil e1 rest')] at h
          have h2 : e1 ≤ (e1 :: rest').getLast (List.cons_ne_nil e1 rest') :=
            head_le_getLast_of_sorted e1 rest' hs.of_cons
          exact absurd (lt_of_le_of_lt h2 h) (not_lt.mpr hc.2)
    · rw [if_neg hc]
      rw [Option.map_eq_none', ih e1 hs.of_cons, List.getLast_cons (List.cons_ne_nil e1 rest')]
      constructor
      · rintro (h | h)
        · rcases not_and_or.mp hc with h' | h'
          · exact Or.inl (not_lt.mp h')
          · exact absurd h h'
        · exact Or.inr h
      · rintro (h | h)
        · exact Or.inl (le_trans h (le_of_lt ((List.pairwise_cons.mp hs).1 e1 (List.mem_cons_self e1 rest'))))
        · exact Or.inr h

/-- C3: for every bin definition with strictly ascending edges, the
segmenter maps `v` to index/label `i` exactly when
`edges[i] < v ≤ edges[i+1]` (right-inclusive), and leaves `v` unbucketed
exactly when `v ≤ e0` or `v > e_last`; a bucketed value gets label `i`. -/
theorem cut_right_inclusive (edges : List (WithTop ℚ)) (labels : List String)
    (hs : edges.Pairwise (· < ·)) (hne : edges ≠ []) :
    (∀ (v : ℚ) (i : ℕ), cutIdx edges v = some i ↔
        ∃ a b, edges[i]? = some a ∧ edges[i + 1]? = some b
          ∧ a < (v : WithTop ℚ) ∧ (v : WithTop ℚ) ≤ b)
    ∧ (∀ v : ℚ, cutIdx edges v = none ↔
        (v : WithTop ℚ) ≤ edges.head hne ∨ edges.getLast hne < (v : WithTop ℚ))
    ∧ (∀ (v : ℚ) (i : ℕ), cutIdx edges v = some i → cut edges labels v = labels[i]?) := by
  obtain ⟨e0, rest, rfl⟩ := List.exists_cons_of_ne_nil hne
  refine ⟨fun v i => cutIdx_some_iff _ hs v i, fun v => ?_, fun v i h => by simp [cut, h]⟩
  simpa using cutIdx_none_iff e0 rest hs v

/-- Witness for `cut_right_inclusive` on the concrete bins of the scripts:
discount 0.0 is unbucketed (no discount band), 0.1 falls in band `0-10%`,
0.2 in `10-20%`, and a customer with total sales exactly 1000 falls in the
`Bronze` `(0, 1000]` tier. -/
theorem cut_right_inclusive_witness :
    cutIdx discountEdges 0 = none
    ∧ cut discountEdges discountLabels (1 / 10) = some "0-10%"
    ∧ cut discountEdges discountLabels (2 / 10) = some "10-20%"
    ∧ cut tierEdges tierLabels 1000 = some "Bronze" :=
  ⟨((cut_right_inclusive discountEdges discountLabels (by decide) (by decide)).2.1 0).mpr
      (Or.inl (by decide)),
    by decide, by decide, by decide⟩

/-- A list's length is the sum of weight 1 over its elements. -/
theorem length_eq_sum_ones {β : Type} (l : List β) :
    l.length = (l.map (fun _ => (1 : ℕ))).sum := by
  simp [List.map_const', List.sum_replicate]

/-- One step of a grouped weight sum: the head row contributes its weight
exactly to the group carrying its key. -/
theorem filter_key_cons_sum {α K M : Type} [DecidableEq K] [AddCommMonoid M]
    (key : α → Option K) (w : α → M) (r : α) (rs : List α) (k : K) :
    (((r :: rs).filter (fun x => decide (key x = some k))).map w).sum
      = (if key r = some k then w r else 0)
        + ((rs.filter (fun x => decide (key x = some k))).map w).sum := by
  rw [List.filter_cons]
  by_cases h : key r = some k
  · rw [if_pos (by simp [h]), if_pos h, List.map_cons, List.sum_cons]
  · rw [if_neg (by simp [h]), if_neg h, zero_add]

/-- Summing over a duplicate-free key list where exactly one key's term is
bumped by `c`. -/
theorem sum_map_bump {K M : Type} [DecidableEq K] [AddCommMonoid M]
    (ks : List K) (k0 : K) (hn : ks.Nodup) (hk : k0 ∈ ks)
    (f g : K → M) (c : M)
    (hfg : ∀ k ∈ ks, k ≠ k0 → f k = g k) (hf : f k0 = c + g k0) :
    (ks.map f).sum = c + (ks.map g).sum := by
  induction ks with
  | nil => cases hk
  | cons k ks' ih =>
    rcases List.mem_cons.mp hk with rfl | hk'
    · have hrest : ks'.map f = ks'.map g := by
        refine List.map_congr_left (fun x hx => hfg x (List.mem_cons_of_mem _ hx) ?_)
        rintro rfl
        exact (List.nodup_cons.mp hn).1 hx
      simp only [List.map_cons, List.sum_cons, hf, hrest, add_assoc]
    · have hne : k ≠ k0 := by
        rintro rfl
        exact (List.nodup_cons.mp hn).1 hk'
      have hih := ih (List.nodup_cons.mp hn).2 hk'
        (fun x hx hxne => hfg x (List.mem_cons_of_mem _ hx) hxne)
      simp only [List.map_cons, List.sum_cons, hfg k (List.mem_cons_self _ _) hne, hih]
      rw [add_left_comm]

/-- Grouped reduction is fiberwise summation: summing a weight over every
group (one per key in a duplicate-free covering key list) equals summing it
over the rows with a defined key. -/
theorem sum_over_groups {α K M : Type} [DecidableEq K] [AddCommMonoid M]
    (key : α → Option K) (w : α → M) (rs : List α) (ks : List K)
    (hn : ks.Nodup) (hcov : ∀ r ∈ rs, ∀ k, key r = some k → k ∈ ks) :
    (ks.map (fun k => ((rs.filter (fun r => decide (key r = some k))).map w).sum)).sum
      = ((rs.filter (fun r => (key r).isSome)).map w).sum := by
  induction rs with
  | nil => simp
  | cons r rs' ih =>
    have ih' := ih (fun x hx k hk => hcov x (List.mem_cons_of_mem _ hx) k hk)
    have hstep : ks.map (fun k => (((r :: rs').filter (fun x => decide (key x = some k))).map w).sum)
        = ks.map (fun k => (if key r = some k then w r else 0)
            + ((rs'.filter (fun x => decide (key x = some k))).map w).sum) :=
      List.map_congr_left (fun k _ => filter_key_cons_sum key w r rs' k)
    rw [hstep, List.filter_cons]
    cases hkr : key r with
    | none =>
      have hmap : (ks.map (fun k => (if (none : Option K) = some k then w r else 0)
          + ((rs'.filter (fun x => decide (key x = some k))).map w).sum))
          = ks.map (fun k => ((rs'.filter (fun x => decide (key x = some k))).map w).sum) :=
        List.map_congr_left (fun k _ => by simp)
      rw [hmap, ih']
      simp
    | some k0 =>
      have hk0 : k0 ∈ ks := hcov r (List.mem_cons_self _ _) k0 hkr
      rw [sum_map_bump ks k0 hn hk0 _
        (fun k => ((rs'.filter (fun x => decide (key x = some k))).map w).sum) (w r)
        (fun k hk hne => by simp [Ne.symm hne])
        (by simp)]
      rw [ih']
      simp

/-- The key column of a `groupBy` result has no duplicates. -/
theorem groupKeys_nodup {α K : Type} [DecidableEq K] [LinearOrder K]
    (key : α → Option K) (rs : List α) : (groupKeys key rs).Nodup :=
  (List.perm_insertionSort _ _).nodup_iff.mpr (List.nodup_dedup _)

/-- Every defined key value occurring in the rows occurs in the group-key
list. -/
theorem mem_groupKeys {α K : Type} [DecidableEq K] [LinearOrder K]
    (key : α → Option K) (rs : List α) (r : α) (k : K)
    (hr : r ∈ rs) (hk : key r = some k) : k ∈ groupKeys key rs := by
  rw [groupKeys, List.mem_insertionSort, List.mem_dedup]
  exact List.mem_filterMap.mpr ⟨r, hr, hk⟩

/-- C4: grouping partitions the rows with a defined key.  Group keys are
pairwise distinct; every row of a group carries that group's key (so the
groups are pairwise disjoint); a row with an undefined (`NaN`) key belongs
to no group — it is dropped, it does not form its own group; and the group
record counts sum to the number of rows with a defined key (not the input
row count). -/
theorem groupBy_partition {α K : Type} [DecidableEq K] [LinearOrder K]
    (key : α → Option K) (rs : List α) :
    ((groupBy key rs).map Prod.fst).Nodup
    ∧ (∀ g ∈ groupBy key rs, ∀ r ∈ g.2, key r = some g.1)
    ∧ (∀ r, key r = none → ∀ g ∈ groupBy key rs, r ∉ g.2)
    ∧ ((groupBy key rs).map (fun g => g.2.length)).sum
        = (rs.filter (fun r => (key r).isSome)).length := by
  have hkeysnd : (groupBy key rs).map Prod.fst = groupKeys key rs := by
    rw [groupBy, List.map_map]
    exact List.map_id _
  refine ⟨hkeysnd ▸ groupKeys_nodup key rs, ?_, ?_, ?_⟩
  · rintro g hg r hr
    rcases List.mem_map.mp hg with ⟨k, hk, rfl⟩
    exact of_decide_eq_true (List.mem_filter.mp hr).2
  · rintro r hnone g hg hr
    rcases List.mem_map.mp hg with ⟨k, hk, rfl⟩
    have h := of_decide_eq_true (List.mem_filter.mp hr).2
    rw [hnone] at h
    cases h
  · rw [groupBy, List.map_map]
    have hcomp : ((groupKeys key rs).map
          ((fun g : K × List α => g.2.length)
            ∘ (fun k => (k, rs.filter (fun r => decide (key r = some k))))))
        = (groupKeys key rs).map
            (fun k => ((rs.filter (fun r => decide (key r = some k))).map (fun _ => (1 : ℕ))).sum) :=
      List.map_congr_left (fun k _ => length_eq_sum_ones _)
    rw [hcomp, sum_over_groups key (fun _ => (1 : ℕ)) rs _ (groupKeys_nodup key rs)
      (fun r hr k hk => mem_groupKeys key rs r k hr hk), ← length_eq_sum_ones]

/-- Witness for `groupBy_partition`: grouping two records by region (a key
that is always defined) gives groups whose record counts sum to 2. -/
theorem groupBy_partition_witness :
    ((groupBy (fun r : Rec => some r.region)
        [(⟨1, 1, 1, 5, 10, 1, 1, 0⟩ : Rec), (⟨2, 2, 2, 3, 20, 2, 1, 0⟩ : Rec)]).map
          (fun g => g.2.length)).sum = 2 :=
  ((groupBy_partition (fun r : Rec => some r.region) _).2.2.2).trans (by decide)

/-- Counterexample to C4 as stated: a single record with discount 0.0 has
no discount band (undefined key), and `groupby('Discount_Bin')` drops it —
the group counts sum to 0, not to the input count 1; the undefined key does
not form its own group. -/
theorem discount_group_counts_drop_row :
    ((groupBy discount_bin_key [(⟨1, 1, 1, 1, 100, 20, 1, 0⟩ : Rec)]).map
        (fun g => g.2.length)).sum = 0
    ∧ ([(⟨1, 1, 1, 1, 100, 20, 1, 0⟩ : Rec)]).length = 1 ∧ (0 : ℕ) ≠ 1 := by
  refine ⟨by decide, by decide, by decide⟩

/-- C5: for a grouping whose key is defined on every record, summing the
per-group `sum(sales)` totals over all groups equals the whole-dataset
total-sales KPI over the same records. -/
theorem group_sums_match_total {K : Type} [DecidableEq K] [LinearOrder K]
    (key : Rec → Option K) (rs : List Rec) (h : ∀ r ∈ rs, (key r).isSome) :
    ((groupBy key rs).map (fun g => totalSales g.2)).sum = totalSales rs := by
  rw [groupBy, List.map_map]
  have hcomp : ((groupKeys key rs).map
        ((fun g : K × List Rec => totalSales g.2)
          ∘ (fun k => (k, rs.filter (fun r => decide (key r = some k))))))
      = (groupKeys key rs).map
          (fun k => ((rs.filter (fun r => decide (key r = some k))).map Rec.sales).sum) :=
    List.map_congr_left (fun k _ => rfl)
  rw [hcomp, sum_over_groups key Rec.sales rs _ (groupKeys_nodup key rs)
    (fun r hr k hk => mem_groupKeys key rs r k hr hk), List.filter_eq_self.mpr h]
  rfl

/-- Witness for `group_sums_match_total`: two records grouped by region;
the groups' sales sums add up to the total-sales KPI. -/
theorem group_sums_match_total_witness :
    ((groupBy (fun r : Rec => some r.region)
        [(⟨1, 1, 1, 5, 10, 1, 1, 0⟩ : Rec), (⟨2, 2, 2, 3, 20, 2, 1, 0⟩ : Rec)]).map
          (fun g => totalSales g.2)).sum
      = totalSales [(⟨1, 1, 1, 5, 10, 1, 1, 0⟩ : Rec), (⟨2, 2, 2, 3, 20, 2, 1, 0⟩ : Rec)] :=
  group_sums_match_total _ _ (by decide)

/-- Counterexample to C5 as stated: one record with sales 100 and discount
0.0 — grouping by discount band drops it, so the groups' sales sums total
0 while the whole-dataset total-sales KPI over the same records is 100. -/
theorem discount_group_sums_drop_sales :
    ((groupBy discount_bin_key [(⟨3, 1, 1, 1, 100, 20, 1, 0⟩ : Rec)]).map
        (fun g => totalSales g.2)).sum = 0
    ∧ totalSales [(⟨3, 1, 1, 1, 100, 20, 1, 0⟩ : Rec)] = 100
    ∧ (0 : ℚ) ≠ 100 := by
  refine ⟨by decide, by decide, by decide⟩

/-- Inserting a row into a stably-descending-sorted list keeps the
invariant "descending on the metric, ties in ascending key order",
provided the inserted row's key is below every key already present. -/
theorem orderedInsert_pairwise_stable {α K : Type} [LinearOrder K]
    (metric : α → ℚ) (key : α → K) (x : α) (s : List α)
    (hsort : s.Pairwise (fun a b => metric b ≤ metric a))
    (hR : s.Pairwise (fun a b => metric b < metric a ∨ (metric a = metric b ∧ key a < key b)))
    (hx : ∀ z ∈ s, key x < key z) :
    (s.orderedInsert (fun a b => metric b ≤ metric a) x).Pairwise
      (fun a b => metric b < metric a ∨ (metric a = metric b ∧ key a < key b)) := by
  induction s with
  | nil => simp [List.orderedInsert]
  | cons y ys ih =>
    rw [List.orderedInsert]
    by_cases hr : metric y ≤ metric x
    · rw [if_pos hr]
      refine List.pairwise_cons.mpr ⟨?_, hR⟩
      intro z hz
      have hzy : metric z ≤ metric y := by
        rcases List.mem_cons.mp hz with rfl | hz'
        · exact le_refl _
        · exact (List.pairwise_cons.mp hsort).1 z hz'
      rcases lt_or_eq_of_le (le_trans hzy hr) with h | h
      · exact Or.inl h
      · exact Or.inr ⟨h.symm, hx z hz⟩
    · rw [if_neg hr]
      refine List.pairwise_cons.mpr
        ⟨?_, ih hsort.of_cons hR.of_cons (fun z hz => hx z (List.mem_cons_of_mem _ hz))⟩
      intro z hz
      rcases (List.mem_orderedInsert _).mp hz with rfl | hz'
      · exact Or.inl (lt_of_not_le hr)
      · exact (List.pairwise_cons.mp hR).1 z hz'

/-- The stable descending sort of a list whose keys are strictly ascending
is descending on the metric with ties in ascending key order (stability:
equal metric values keep their original, key-ascending, relative order). -/
theorem insertionSort_pairwise_stable {α K : Type} [LinearOrder K]
    (metric : α → ℚ) (key : α → K) (l : List α)
    (hkey : l.Pairwise (fun a b => key a < key b)) :
    (List.insertionSort (fun a b => metric b ≤ metric a) l).Pairwise
      (fun a b => metric b < metric a ∨ (metric a = metric b ∧ key a < key b)) := by
  induction l with
  | nil => simp
  | cons x xs ih =>
    rw [List.insertionSort]
    refine orderedInsert_pairwise_stable metric key x _ ?_ (ih hkey.of_cons) ?_
    · haveI h1 : IsTotal α (fun a b => metric b ≤ metric a) := ⟨fun a b => le_total _ _⟩
      haveI h2 : IsTrans α (fun a b => metric b ≤ metric a) :=
        ⟨fun a b c h1 h2 => le_trans h2 h1⟩
      exact List.sorted_insertionSort _ xs
    · intro z hz
      exact (List.pairwise_cons.mp hkey).1 z ((List.mem_insertionSort _).mp hz)

/-- C7: on an aggregation result whose group keys are strictly ascending
(as `groupby(sort=True)` produces), `nlargest n metric` returns the first
`min n total` rows of the stable descending sort: the output has exactly
that length, every selected row's metric is at least every unselected
row's metric, and the output order is fully deterministic — descending on
the metric with ties in ascending group-key order. -/
theorem nlargest_top_n {α K : Type} [LinearOrder K]
    (n : ℕ) (metric : α → ℚ) (key : α → K) (rows : List α)
    (hkey : rows.Pairwise (fun a b => key a < key b)) :
    (nlargest n metric rows).length = min n rows.length
    ∧ (∃ rest, List.Perm rows (nlargest n metric rows ++ rest)
        ∧ (∀ x ∈ nlargest n metric rows, ∀ y ∈ rest, metric y ≤ metric x))
    ∧ (nlargest n metric rows).Pairwise
        (fun a b => metric b < metric a ∨ (metric a = metric b ∧ key a < key b)) := by
  haveI h1 : IsTotal α (fun a b => metric b ≤ metric a) := ⟨fun a b => le_total _ _⟩
  haveI h2 : IsTrans α (fun a b => metric b ≤ metric a) :=
    ⟨fun a b c hab hbc => le_trans hbc hab⟩
  have hsorted : (List.insertionSort (fun a b => metric b ≤ metric a) rows).Sorted
      (fun a b => metric b ≤ metric a) := List.sorted_insertionSort _ rows
  have hperm : List.Perm (List.insertionSort (fun a b => metric b ≤ metric a) rows) rows :=
    List.perm_insertionSort _ rows
  refine ⟨?_, ⟨(List.insertionSort (fun a b => metric b ≤ metric a) rows).drop n, ?_, ?_⟩, ?_⟩
  · rw [nlargest, List.length_take, hperm.length_eq]
  · rw [nlargest]
    exact hperm.symm.trans (List.Perm.of_eq (List.take_append_drop n _).symm)
  · intro x hx y hy
    exact hsorted.rel_of_mem_take_of_mem_drop hx hy
  · exact (insertionSort_pairwise_stable metric key rows hkey).sublist (List.take_sublist _ _)

/-- Witness for `nlargest_top_n`, on the concrete scenario of the spec:
customers 1, 2, 3 with sales 50, 200, 200 — `nlargest 2` returns the two
200-sales groups in ascending key order `[2, 3]`, deterministically. -/
theorem nlargest_top_n_witness :
    (nlargest 2 CustRow.sales (customer_analysis
        [(⟨1, 1, 1, 1, 50, 5, 1, 0⟩ : Rec), (⟨2, 2, 1, 1, 200, 5, 1, 0⟩ : Rec),
          (⟨3, 3, 1, 1, 200, 5, 1, 0⟩ : Rec)])).length
      = min 2 (customer_analysis
          [(⟨1, 1, 1, 1, 50, 5, 1, 0⟩ : Rec), (⟨2, 2, 1, 1, 200, 5, 1, 0⟩ : Rec),
            (⟨3, 3, 1, 1, 200, 5, 1, 0⟩ : Rec)]).length
    ∧ nlargest 2 CustRow.sales (customer_analysis
        [(⟨1, 1, 1, 1, 50, 5, 1, 0⟩ : Rec), (⟨2, 2, 1, 1, 200, 5, 1, 0⟩ : Rec),
          (⟨3, 3, 1, 1, 200, 5, 1, 0⟩ : Rec)])
      = [(⟨2, 200, 5, 1⟩ : CustRow), (⟨3, 200, 5, 1⟩ : CustRow)] :=
  ⟨(nlargest_top_n 2 CustRow.sales CustRow.customer _ (by decide)).1, by decide⟩

/-- C8 (amended): `bottom_10_profit` consists only of negative-total-profit
product groups, is ordered descending by total *sales* (the order inherited
from `top_products`), has length `min 10 (number of loss-making groups)`,
and contains every loss-making group when there are at most 10 of them. -/
theorem bottom_10_profit_spec (rs : List Rec) :
    (∀ p ∈ bottom_10_profit rs, p.profit < 0)
    ∧ (bottom_10_profit rs).Pairwise (fun a b => b.sales ≤ a.sales)
    ∧ (bottom_10_profit rs).length
        = min 10 ((top_products rs).filter (fun p => decide (p.profit < 0))).length
    ∧ (((top_products rs).filter (fun p => decide (p.profit < 0))).length ≤ 10 →
        ∀ p ∈ top_products rs, p.profit < 0 → p ∈ bottom_10_profit rs) := by
  refine ⟨?_, ?_, ?_, ?_⟩
  · intro p hp
    exact of_decide_eq_true (List.mem_filter.mp (List.mem_of_mem_take hp)).2
  · haveI h1 : IsTotal ProdRow (fun a b => b.sales ≤ a.sales) := ⟨fun a b => le_total _ _⟩
    haveI h2 : IsTrans ProdRow (fun a b => b.sales ≤ a.sales) :=
      ⟨fun a b c hab hbc => le_trans hbc hab⟩
    have hsorted : (top_products rs).Pairwise (fun a b => b.sales ≤ a.sales) := by
      rw [top_products]
      exact List.sorted_insertionSort _ _
    exact (hsorted.filter _).sublist (List.take_sublist _ _)
  · rw [bottom_10_profit, List.length_take]
  · intro hlen p hp hneg
    rw [bottom_10_profit, List.take_of_length_le hlen]
    exact List.mem_filter.mpr ⟨hp, decide_eq_true hneg⟩

/-- Witness for `bottom_10_profit_spec`: two loss-making products with
sales 100 and 50; the result lists both, in descending-sales order. -/
theorem bottom_10_profit_spec_witness :
    (∀ p ∈ bottom_10_profit
        [(⟨1, 1, 1, 1, 100, -1, 1, 0⟩ : Rec), (⟨2, 2, 2, 1, 50, -100, 1, 0⟩ : Rec)],
      p.profit < 0)
    ∧ bottom_10_profit
        [(⟨1, 1, 1, 1, 100, -1, 1, 0⟩ : Rec), (⟨2, 2, 2, 1, 50, -100, 1, 0⟩ : Rec)]
      = [(⟨1, 100, -1, 1⟩ : ProdRow), (⟨2, 50, -100, 1⟩ : ProdRow)] :=
  ⟨(bottom_10_profit_spec _).1, by decide⟩

/-- Counterexample to C8 as stated: products 1 (sales 100, profit −1) and
2 (sales 50, profit −100).  `bottom_10_profit` lists profits `[−1, −100]` —
descending-sales order inherited from `top_products` — which is not
ascending order of profit (that would put −100 first). -/
theorem bottom_10_profit_not_ascending :
    (bottom_10_profit
        [(⟨1, 1, 1, 1, 100, -1, 1, 0⟩ : Rec), (⟨2, 2, 2, 1, 50, -100, 1, 0⟩ : Rec)]).map
      ProdRow.profit = [-1, -100]
    ∧ ¬((-1 : ℚ) ≤ -100) := by
  refine ⟨by decide, by decide⟩

/-- C6 (amended): date parsing is total (`errors='coerce'`: a failed parse
yields `none`, never an exception), and the enhanced/dashboard cleaning
retains every row whose postal code is present — its (possibly undefined)
dates notwithstanding — while the basic script's `dropna()` keeps only rows
whose postal code *and both dates* are all defined. -/
theorem normalization_retention (rs : List RawRow) :
    (∀ raw ∈ rs, raw.postal.isSome → normalizeRow raw ∈ clean_enhanced rs)
    ∧ (∀ r ∈ clean_enhanced rs, r.postal.isSome)
    ∧ (∀ r ∈ clean_basic rs, r.postal.isSome ∧ r.orderDate.isSome ∧ r.shipDate.isSome) := by
  refine ⟨?_, ?_, ?_⟩
  · intro raw hraw hp
    exact List.mem_filter.mpr ⟨List.mem_map_of_mem _ hraw, by simpa [normalizeRow] using hp⟩
  · intro r hr
    exact (List.mem_filter.mp hr).2
  · intro r hr
    have h := (List.mem_filter.mp hr).2
    rw [rowComplete, Bool.and_eq_true, Bool.and_eq_true] at h
    exact ⟨h.1.1, h.1.2, h.2⟩

/-- Witness for `normalization_retention`: a row with postal code present
and the unparseable order date 31/02/2014 is retained by the enhanced
cleaning, with its order date undefined. -/
theorem normalization_retention_witness :
    normalizeRow (⟨1, some 1, 31, 2, 2014, 1, 1, 2014, 100, 20⟩ : RawRow)
        ∈ clean_enhanced [(⟨1, some 1, 31, 2, 2014, 1, 1, 2014, 100, 20⟩ : RawRow)]
    ∧ (normalizeRow (⟨1, some 1, 31, 2, 2014, 1, 1, 2014, 100, 20⟩ : RawRow)).orderDate = none :=
  ⟨(normalization_retention _).1 _ (List.mem_singleton_self _) (by decide), by decide⟩

/-- Counterexample to C6 as stated: the date 31/02/2014 fails to parse
(becomes `NaT`), and the basic script's cleaning then drops the whole row —
it is not retained — while the enhanced cleaning keeps it. -/
theorem clean_basic_drops_unparsed_dates :
    to_datetime 31 2 2014 = none
    ∧ clean_basic [(⟨1, some 1, 31, 2, 2014, 1, 1, 2014, 100, 20⟩ : RawRow)] = []
    ∧ clean_enhanced [(⟨1, some 1, 31, 2, 2014, 1, 1, 2014, 100, 20⟩ : RawRow)]
        = [normalizeRow (⟨1, some 1, 31, 2, 2014, 1, 1, 2014, 100, 20⟩ : RawRow)] := by
  refine ⟨by decide, by decide, by decide⟩
